import Mathlib

/-!
Shallow embedding of the HireLoop preprocessing pipeline
(`src/utils.py`, `src/resume_parser.py`, `src/job_parser.py`, `src/manager.py`).

Text is modelled as `List Char`.  Python string operations used by the source
(`str.strip`, `str.split`, `str.lower`, `str.replace`, membership `in`,
`re` patterns) are embedded as executable Lean functions below.  Whitespace
is modelled by the characters Python's `\s` / `str.strip()` recognise on the
documents in scope (ASCII whitespace plus the non-breaking space U+00A0).
-/

namespace HireLoop

/-- Characters treated as whitespace by Python's `\s` regex class and
`str.strip()` (restricted to the ASCII range plus U+00A0). -/
def isPySpace (c : Char) : Bool :=
  c = ' ' || c = '\t' || c = '\n' || c = '\r' || c = '\x0b' || c = '\x0c' || c = '\xa0'

/-- ASCII lowercasing, as `str.lower()` acts on the ASCII documents in scope. -/
def lowerChar (c : Char) : Char :=
  if 'A' ≤ c ∧ c ≤ 'Z' then Char.ofNat (c.toNat + 32) else c

/-- `str.lower()` over a text. -/
def lowerL (l : List Char) : List Char := l.map lowerChar

/-- ASCII decimal digit, as Python's `\d` / `str.isdigit` on ASCII text. -/
def isDigitC (c : Char) : Bool := '0' ≤ c && c ≤ '9'

/-- ASCII letter, as Python's `str.isalpha` on ASCII text. -/
def isAlphaC (c : Char) : Bool := ('a' ≤ c && c ≤ 'z') || ('A' ≤ c && c ≤ 'Z')

/-- ASCII uppercase letter, as Python's `str.isupper` on a single ASCII char. -/
def isUpperC (c : Char) : Bool := 'A' ≤ c && c ≤ 'Z'

/-- Python's `\w` word-character class (ASCII range). -/
def isWordC (c : Char) : Bool := isAlphaC c || isDigitC c || c = '_'

/-- Python `str.lstrip()` restricted to a character predicate. -/
def dropLeading (p : Char → Bool) (l : List Char) : List Char := l.dropWhile p

/-- Drop matching characters from the end of a list. -/
def dropTrailing (p : Char → Bool) (l : List Char) : List Char :=
  (l.reverse.dropWhile p).reverse

/-- Python `str.strip()` (no argument): remove leading and trailing whitespace. -/
def pyStrip (l : List Char) : List Char :=
  dropTrailing isPySpace (l.dropWhile isPySpace)

/-- Python `str.strip(chars)`: remove leading and trailing characters that are
members of the given set. -/
def pyStripSet (cs : List Char) (l : List Char) : List Char :=
  dropTrailing (fun c => cs.contains c) (l.dropWhile (fun c => cs.contains c))

/-- Python `str.split("\n")`: split on every newline, keeping empty pieces
(`"".split("\n") == [""]`). -/
def splitNl : List Char → List (List Char)
  | [] => [[]]
  | c :: rest =>
    match splitNl rest with
    | [] => [[c]]
    | l :: ls => if c = '\n' then [] :: l :: ls else (c :: l) :: ls

/-- Python `"\n".join(pieces)`. -/
def joinNl : List (List Char) → List Char
  | [] => []
  | [l] => l
  | l :: ls => l ++ '\n' :: joinNl ls

/-- Python `str.split()` (no argument): split on whitespace runs, dropping
empty pieces. -/
def pySplitWs (l : List Char) : List (List Char) :=
  (l.splitOnP isPySpace).filter (· ≠ [])

/-- `needle` is a prefix of `hay` (helper for Python's substring test). -/
def startsWithL : List Char → List Char → Bool
  | [], _ => true
  | _ :: _, [] => false
  | c :: n', d :: h' => c == d && startsWithL n' h'

/-- Python's substring test `needle in hay`. -/
def containsSub (needle hay : List Char) : Bool :=
  startsWithL needle hay ||
    match hay with
    | [] => false
    | _ :: h' => containsSub needle h'

/-!
### `clean_text` (src/utils.py lines 110-128)

`WHITESPACE_RE = re.compile(r"\s+")`; `clean_text` replaces `\xa0` by a
space, normalizes `\r\n` and `\r` to `\n`, substitutes every maximal
whitespace run by one space, and strips.  The `\s+ -> " "` substitution is
embedded as: map every whitespace character to a space, then collapse each
run of spaces to a single space (`squeezeSp`), which replaces each maximal
whitespace run by exactly one space.
-/

/-- `str.replace("\xa0", " ")`, character-wise. -/
def nbspToSpace (c : Char) : Char := if c = '\xa0' then ' ' else c

/-- `str.replace("\r", "\n")`, character-wise (applied after `\r\n`
replacement). -/
def crToNl (c : Char) : Char := if c = '\r' then '\n' else c

/-- `str.replace("\r\n", "\n")`: left-to-right non-overlapping replacement. -/
def replaceCrlf : List Char → List Char
  | [] => []
  | [c] => [c]
  | c :: d :: rest =>
    if c = '\r' ∧ d = '\n' then '\n' :: replaceCrlf rest
    else c :: replaceCrlf (d :: rest)

/-- Collapse every run of adjacent spaces to a single space. -/
def squeezeSp : List Char → List Char
  | [] => []
  | [c] => [c]
  | c :: d :: rest =>
    if c = ' ' ∧ d = ' ' then squeezeSp (d :: rest)
    else c :: squeezeSp (d :: rest)

/-- `WHITESPACE_RE.sub(" ", s)`: replace each maximal whitespace run by one
space. -/
def collapseWs (l : List Char) : List Char :=
  squeezeSp (l.map (fun c => if isPySpace c then ' ' else c))

/-- `clean_text` from src/utils.py: normalize whitespace and line endings. -/
def clean_text (l : List Char) : List Char :=
  if l = [] then []
  else pyStrip (collapseWs (((replaceCrlf (l.map nbspToSpace)).map crToNl)))

/-!
### `split_sections` (src/utils.py lines 237-289)
-/

/-- `SECTION_HEADERS` from src/utils.py: section kind mapped to its marker
phrases. -/
def SECTION_HEADERS : List (String × List (List Char)) :=
  [ ("education", ["education".toList, "academic background".toList])
  , ("experience", ["experience".toList, "work experience".toList,
      "employment history".toList])
  , ("skills", ["skills".toList, "technical skills".toList,
      "skills & endorsements".toList])
  , ("projects", ["projects".toList, "personal projects".toList])
  , ("certifications", ["certifications".toList, "licenses".toList,
      "certifications & licenses".toList])
  , ("responsibilities", ["responsibilities".toList, "what you'll do".toList,
      "what you will do".toList])
  , ("requirements", ["requirements".toList, "what you'll need".toList,
      "qualifications".toList]) ]

/-- The flattened `header_map` of src/utils.py, in dict insertion order:
each marker phrase paired with its section kind. -/
def headerPairs : List (List Char × String) :=
  SECTION_HEADERS.flatMap (fun p => p.2.map (fun h => (h, p.1)))

/-- Strip `h` case-insensitively from the front of `l`, returning the rest. -/
def dropCI : List Char → List Char → Option (List Char)
  | [], l => some l
  | _ :: _, [] => none
  | c :: h', d :: l' =>
    if lowerChar c = lowerChar d then dropCI h' l' else none

/-- The anchored header regex `^\s*{re.escape(h)}\s*:?$` with `re.I`, applied
via `.match`: skip leading whitespace, consume the phrase case-insensitively,
skip whitespace, then require end of line or a single final colon.  (Maximal
whitespace munching is complete here because no configured phrase starts
with whitespace and neither the phrase nor `:` can begin with whitespace.) -/
def headerLineMatches (h ln : List Char) : Bool :=
  match dropCI h (ln.dropWhile isPySpace) with
  | none => false
  | some r =>
    let r2 := r.dropWhile isPySpace
    r2 = [] || r2 = [':']

/-- First header phrase (in `header_patterns` iteration order) matching the
line, mapped through `header_map` to its section kind. -/
def headerOf (ln : List Char) : Option String :=
  (headerPairs.find? (fun p => headerLineMatches p.1 ln)).map (·.2)

/-- The accumulation loop of `split_sections`, with `flush`: a section is
appended only when the accumulated line buffer is non-empty; its body is
`"\n".join(current_lines).strip()`. -/
def splitLoop : String → List (List Char) → List (List Char) →
    List (String × List Char)
  | curName, curLines, [] =>
    if curLines = [] then [] else [(curName, pyStrip (joinNl curLines))]
  | curName, curLines, ln :: rest =>
    match headerOf ln with
    | some name =>
      if curLines = [] then splitLoop name [] rest
      else (curName, pyStrip (joinNl curLines)) :: splitLoop name [] rest
    | none => splitLoop curName (curLines ++ [ln]) rest

/-- `split_sections` from src/utils.py. -/
def split_sections (text : List Char) : List (String × List Char) :=
  if text = [] then [("body", [])]
  else
    let lines := ((splitNl text).map pyStrip).filter (· ≠ [])
    if lines = [] then [("body", [])]
    else
      let secs := splitLoop "body" [] lines
      if secs = [] then [("body", text)] else secs

/-!
### `find_skills` (src/utils.py lines 172-230)
-/

/-- `DEFAULT_SKILLS` from src/utils.py. -/
def DEFAULT_SKILLS : List (List Char) :=
  [ "python".toList, "java".toList, "javascript".toList, "typescript".toList,
    "go".toList, "c++".toList, "c#".toList, "ruby".toList, "scala".toList,
    "rust".toList, "sql".toList,
    "react".toList, "node".toList, "django".toList, "flask".toList,
    "fastapi".toList, "spring".toList, "rails".toList, "angular".toList,
    "vue".toList,
    "pandas".toList, "numpy".toList, "scikit-learn".toList,
    "tensorflow".toList, "pytorch".toList, "spacy".toList, "nltk".toList,
    "aws".toList, "gcp".toList, "azure".toList, "docker".toList,
    "kubernetes".toList, "terraform".toList, "git".toList ]

/-- The negative-lookbehind class `[\w+#.]` of the skill pattern. -/
def skillBeforeClass (c : Char) : Bool :=
  isWordC c || c = '+' || c = '#' || c = '.'

/-- The negative-lookahead class `[\w+-]` of the skill pattern. -/
def skillAfterClass (c : Char) : Bool :=
  isWordC c || c = '+' || c = '-'

/-- The escaped skill matches literally at the head of `l`, and the
lookahead `(?![\w+-])` holds right after it. -/
def matchCore (s l : List Char) : Bool :=
  match s, l with
  | [], [] => true
  | [], c :: _ => !skillAfterClass c
  | _ :: _, [] => false
  | c :: s', d :: l' => c == d && matchCore s' l'

/-- `re.search(rf"(?<![\w+#.]){re.escape(skill)}(?![\w+-])", text)`: scan the
positions of `l` left to right, carrying the previous character for the
lookbehind `(?<![\w+#.])`. -/
def skillScan (s : List Char) : Option Char → List Char → Bool
  | prev, [] =>
    (match prev with | none => true | some c => !skillBeforeClass c)
      && matchCore s []
  | prev, c :: rest =>
    ((match prev with | none => true | some c' => !skillBeforeClass c')
      && matchCore s (c :: rest))
      || skillScan s (some c) rest

/-- The boundary-aware skill search of `find_skills`. -/
def hasBoundedMatch (s l : List Char) : Bool := skillScan s none l

/-- `sorted(dictionary)` where `dictionary` is the lowered skill set:
unique elements in Python's lexicographic string order. -/
def sortedDict (extra : List (List Char)) : List (List Char) :=
  List.insertionSort (· ≤ ·)
    (((DEFAULT_SKILLS.map lowerL) ++ extra.map lowerL).dedup)

/-- `find_skills` from src/utils.py.  The optional `extra_skills` argument is
the second parameter (the source's callers pass none, i.e. `[]`). -/
def find_skills (text : List Char) (extra : List (List Char)) :
    List (List Char) :=
  if text = [] then []
  else
    (sortedDict extra).filter
      (fun sk => hasBoundedMatch sk (' ' :: lowerL text ++ [' ']))

/-!
### A small backtracking regex engine

The job/contact patterns of src/utils.py and src/job_parser.py are embedded
as abstract syntax trees over this engine, which implements Python `re`
semantics: ordered alternation, greedy quantifiers with backtracking,
leftmost search, and a single capturing group.  The fuel parameter bounds
`star` unfolding only; every `star` body in the embedded patterns consumes
at least one character per iteration, so fuel `t.length + 1` is never
exhausted on a live path.
-/

/-- Regex abstract syntax: empty, single-character class, concatenation,
ordered alternation, greedy Kleene star, capturing group. -/
inductive RE where
  | eps : RE
  | cls : (Char → Bool) → RE
  | seq : RE → RE → RE
  | alt : RE → RE → RE
  | star : RE → RE
  | grp : RE → RE

/-- Backtracking matcher in continuation-passing style, structurally
recursive on the regex; `starCont` re-enters the matcher (one fuel level
lower) for the next Kleene-star iteration.  `i` is the current position in
`t`, `g` the last capture of the group, and `k` the continuation receiving
the position and capture after this node.  Result: match end and group span
of the first success in Python's backtracking order. -/
def reMAux (t : List Char)
    (starCont : RE → Nat → Option (Nat × Nat) →
      (Nat → Option (Nat × Nat) → Option (Nat × Option (Nat × Nat))) →
      Option (Nat × Option (Nat × Nat))) :
    RE → Nat → Option (Nat × Nat) →
    (Nat → Option (Nat × Nat) → Option (Nat × Option (Nat × Nat))) →
    Option (Nat × Option (Nat × Nat))
  | .eps, i, g, k => k i g
  | .cls p, i, g, k =>
    match t.drop i with
    | [] => none
    | c :: _ => if p c then k (i + 1) g else none
  | .seq a b, i, g, k =>
    reMAux t starCont a i g (fun j g2 => reMAux t starCont b j g2 k)
  | .alt a b, i, g, k =>
    (reMAux t starCont a i g k).orElse (fun _ => reMAux t starCont b i g k)
  | .grp a, i, g, k => reMAux t starCont a i g (fun j _ => k j (some (i, j)))
  | .star a, i, g, k =>
    (reMAux t starCont a i g (fun j g2 =>
        if i < j then starCont (.star a) j g2 k else none)).orElse
      (fun _ => k i g)

/-- The matcher with a fuel bound on the total number of star iterations;
every star body in the embedded patterns consumes at least one character
per iteration, so the total never exceeds `t.length` on a live path. -/
def reM (t : List Char) : Nat → RE → Nat → Option (Nat × Nat) →
    (Nat → Option (Nat × Nat) → Option (Nat × Option (Nat × Nat))) →
    Option (Nat × Option (Nat × Nat))
  | 0, _, _, _, _ => none
  | f + 1, re, i, g, k => reMAux t (reM t f) re i g k

/-- Try to match at positions `i, i+1, ...` (countdown `n`), returning
`(start, end, group)` of the leftmost match, like `re.search`. -/
def reSearchAux (t : List Char) (r : RE) :
    Nat → Nat → Option (Nat × Nat × Option (Nat × Nat))
  | _, 0 => none
  | i, n + 1 =>
    match reM t (t.length + 1) r i none (fun j g => some (j, g)) with
    | some (e, g) => some (i, e, g)
    | none => reSearchAux t r (i + 1) n

/-- `re.search`: leftmost match over all start positions (including the end
position). -/
def reSearch (t : List Char) (r : RE) : Option (Nat × Nat × Option (Nat × Nat)) :=
  reSearchAux t r 0 (t.length + 1)

/-- Substring `t[a:b]`. -/
def slice (t : List Char) (a b : Nat) : List Char := (t.drop a).take (b - a)

/-- One-character literal. -/
def lit (c : Char) : RE := .cls (fun x => x == c)

/-- One-character case-insensitive literal (for `re.I` patterns). -/
def litCI (c : Char) : RE := .cls (fun x => lowerChar x == lowerChar c)

/-- Concatenation of a list of regexes. -/
def catRE (l : List RE) : RE := l.foldr .seq .eps

/-- Case-sensitive string literal. -/
def strEx (s : String) : RE := catRE (s.toList.map lit)

/-- Case-insensitive string literal. -/
def strCI (s : String) : RE := catRE (s.toList.map litCI)

/-- Greedy `?`. -/
def optRE (a : RE) : RE := .alt a .eps

/-- Greedy `+`. -/
def plusRE (a : RE) : RE := .seq a (.star a)

/-- `\s`. -/
def wsC : RE := .cls isPySpace

/-- `.` (any character but newline; `re.DOTALL` is never used). -/
def dotC : RE := .cls (fun c => c != '\n')

/-- `[^\n]`. -/
def notNlC : RE := .cls (fun c => c != '\n')

/-- `\d`. -/
def digC : RE := .cls isDigitC

/-!
### Patterns of src/job_parser.py (lines 34-38) and src/utils.py (135-141)
-/

/-- `TITLE_RE = (?:Job\s*Title|Title)\s*:?\s*(.+)` with `re.I`. -/
def TITLE_RE : RE :=
  catRE [ .alt (catRE [strCI "job", .star wsC, strCI "title"]) (strCI "title")
        , .star wsC, optRE (lit ':'), .star wsC, .grp (plusRE dotC) ]

/-- `COMPANY_RE = (?:Company|Employer|Organization)\s*:?\s*(.+)` with `re.I`. -/
def COMPANY_RE : RE :=
  catRE [ .alt (strCI "company") (.alt (strCI "employer") (strCI "organization"))
        , .star wsC, optRE (lit ':'), .star wsC, .grp (plusRE dotC) ]

/-- `LOCATION_RE = (?:Location|Based\s*in)\s*:?\s*(.+)` with `re.I`. -/
def LOCATION_RE : RE :=
  catRE [ .alt (strCI "location") (catRE [strCI "based", .star wsC, strCI "in"])
        , .star wsC, optRE (lit ':'), .star wsC, .grp (plusRE dotC) ]

/-- `EXPERIENCE_RE = (\d+\+?\s*(?:years|yrs)\s+of\s+experience[^\n]*)` with
`re.I`. -/
def EXPERIENCE_RE : RE :=
  .grp (catRE [ plusRE digC, optRE (lit '+'), .star wsC
              , .alt (strCI "years") (strCI "yrs")
              , plusRE wsC, strCI "of", plusRE wsC, strCI "experience"
              , .star notNlC ])

/-- `EDUCATION_RE = (Bachelor'?s|Master'?s|Ph\.?D\.|BS|BA|MS|MA)[^\n]*` with
`re.I`. -/
def EDUCATION_RE : RE :=
  .seq
    (.grp (.alt (catRE [strCI "bachelor", optRE (lit '\''), strCI "s"])
      (.alt (catRE [strCI "master", optRE (lit '\''), strCI "s"])
        (.alt (catRE [strCI "ph", optRE (lit '.'), strCI "d", lit '.'])
          (.alt (strCI "bs") (.alt (strCI "ba") (.alt (strCI "ms") (strCI "ma"))))))))
    (.star notNlC)

/-- `[A-Za-z0-9._%+-]` (email local part). -/
def emailLocalC (c : Char) : Bool :=
  isAlphaC c || isDigitC c || c = '.' || c = '_' || c = '%' || c = '+' || c = '-'

/-- `[A-Za-z0-9.-]` (email domain). -/
def emailDomC (c : Char) : Bool := isAlphaC c || isDigitC c || c = '.' || c = '-'

/-- `EMAIL_RE = [A-Za-z0-9._%+-]+@[A-Za-z0-9.-]+\.[A-Za-z]{2,}`. -/
def EMAIL_RE : RE :=
  catRE [ plusRE (.cls emailLocalC), lit '@', plusRE (.cls emailDomC)
        , lit '.', .cls isAlphaC, .cls isAlphaC, .star (.cls isAlphaC) ]

/-- `[\s.-]` (phone separators). -/
def phoneSepC (c : Char) : Bool := isPySpace c || c = '.' || c = '-'

/-- `\d{1,3}`, greedy. -/
def dig13 : RE := catRE [digC, optRE (catRE [digC, optRE digC])]

/-- `\d{3}`. -/
def dig3 : RE := catRE [digC, digC, digC]

/-- `PHONE_RE =
`(?:(?:\+?\d{1,3}[\s.-]?)?(?:\(?\d{3}\)?|\d{3})[\s.-]?\d{3}[\s.-]?\d{4})`. -/
def PHONE_RE : RE :=
  catRE [ optRE (catRE [optRE (lit '+'), dig13, optRE (.cls phoneSepC)])
        , .alt (catRE [optRE (lit '('), dig3, optRE (lit ')')]) dig3
        , optRE (.cls phoneSepC), dig3, optRE (.cls phoneSepC)
        , dig3, digC ]

/-- The class of `\w`, `-` and `/` (linkedin/github path characters). -/
def urlPathC (c : Char) : Bool := isWordC c || c = '-' || c = '/'

/-- `LINKEDIN_RE = https?://(?:www\.)?linkedin\.com/` followed by one or
more path characters, with `re.I`. -/
def LINKEDIN_RE : RE :=
  catRE [ strCI "http", optRE (litCI 's'), strEx "://", optRE (strCI "www.")
        , strCI "linkedin.com/", plusRE (.cls urlPathC) ]

/-- `GITHUB_RE = https?://(?:www\.)?github\.com/` followed by one or more
path characters, with `re.I`. -/
def GITHUB_RE : RE :=
  catRE [ strCI "http", optRE (litCI 's'), strEx "://", optRE (strCI "www.")
        , strCI "github.com/", plusRE (.cls urlPathC) ]

/-- `REGEX.findall(text)[0]` for the group-free contact patterns, i.e. the
full text of the leftmost match (same as `re.search`), or `None`. -/
def firstFullMatch (r : RE) (t : List Char) : Option (List Char) :=
  (reSearch t r).map (fun m => slice t m.1 m.2.1)

/-- `extract_email` from src/utils.py. -/
def extract_email (t : List Char) : Option (List Char) := firstFullMatch EMAIL_RE t

/-- `extract_phone` from src/utils.py. -/
def extract_phone (t : List Char) : Option (List Char) := firstFullMatch PHONE_RE t

/-- `extract_linkedin` from src/utils.py. -/
def extract_linkedin (t : List Char) : Option (List Char) :=
  firstFullMatch LINKEDIN_RE t

/-- `extract_github` from src/utils.py. -/
def extract_github (t : List Char) : Option (List Char) :=
  firstFullMatch GITHUB_RE t

/-- `_extract_first_match` from src/job_parser.py: `m.group(1).strip()` of
the leftmost match, or `None`. -/
def extract_first_match (r : RE) (t : List Char) : Option (List Char) :=
  match reSearch t r with
  | some (_, _, some (a, b)) => some (pyStrip (slice t a b))
  | _ => none

/-!
### Resume parser (src/resume_parser.py)

File reading (`_read_any`) is abstracted: the extractors take the raw text
directly.  The optional spaCy model is abstracted as
`nlp : Option (List Char → List (List Char × String))`, a named-entity
recognizer returning `(entity_text, entity_label)` pairs; `none` models
both `spacy is None` and a failed `spacy.load`.
-/

/-- A named-entity capability: text to `(entity_text, entity_label)` list. -/
def NerModel := List Char → List (List Char × String)

/-- `_guess_name` from src/resume_parser.py: spaCy PERSON entities over the
first 10 lines if the model is present, else a line-shape heuristic. -/
def guess_name (nlp : Option NerModel) (text : List Char) : Option (List Char) :=
  if text = [] then none
  else
    let firstChunk := joinNl ((splitNl text).take 10)
    let viaNlp : Option (List Char) :=
      match nlp with
      | none => none
      | some model =>
        (((model firstChunk).filter (fun e => e.2 = "PERSON")).map
          (fun e => pyStrip e.1)).head?
    match viaNlp with
    | some p => some p
    | none =>
      ((splitNl firstChunk).find? (fun ln =>
        let tokens := pySplitWs (pyStrip ln)
        decide (1 < tokens.length) && decide (tokens.length ≤ 5)
          && tokens.all (fun t =>
            match t with | c :: _ => isAlphaC c | [] => false)
          && tokens.any (fun t =>
            match t with | c :: _ => isUpperC c | [] => false))).map pyStrip

/-- Keyword list of `_extract_education`. -/
def eduKeywords : List (List Char) :=
  [ "bsc".toList, "b.s".toList, "bs ".toList, "bachelor".toList,
    "msc".toList, "m.s".toList, "ms ".toList, "master".toList,
    "phd".toList, "ph.d".toList, "associate".toList, "diploma".toList,
    "university".toList, "college".toList ]

/-- `_extract_education` from src/resume_parser.py: keep the non-empty
stripped lines containing an education keyword. -/
def extract_education (sec : List Char) : List (List Char) :=
  ((splitNl sec).map pyStrip).filter (fun ln =>
    ln ≠ [] && eduKeywords.any (fun k => containsSub k (lowerL ln)))

/-- Keyword list of `_extract_experience`. -/
def expKeywords : List (List Char) :=
  [ "engineer".toList, "developer".toList, "manager".toList,
    "designer".toList, "intern".toList, "analyst".toList, "lead".toList,
    "founder".toList, "consultant".toList, "architect".toList ]

/-- `_extract_experience` from src/resume_parser.py. -/
def extract_experience (sec : List Char) : List (List Char) :=
  ((splitNl sec).map pyStrip).filter (fun ln =>
    ln ≠ [] && expKeywords.any (fun k => containsSub k (lowerL ln)))

/-- `_extract_projects` from src/resume_parser.py: first 20 non-empty
stripped lines. -/
def extract_projects (sec : List Char) : List (List Char) :=
  (((splitNl sec).map pyStrip).filter (· ≠ [])).take 20

/-- `_extract_certs` from src/resume_parser.py. -/
def extract_certs (sec : List Char) : List (List Char) :=
  (((splitNl sec).map pyStrip).filter (· ≠ [])).take 20

/-- The dict returned by `extract_resume_data`. -/
structure ResumeData where
  name : Option (List Char)
  email : Option (List Char)
  phone : Option (List Char)
  education : List (List Char)
  experience : List (List Char)
  skills : List (List Char)
  projects : List (List Char)
  certifications : List (List Char)
  linkedin : Option (List Char)
  github : Option (List Char)
  raw_text : List Char
  deriving DecidableEq, Repr

/-- `"\n".join(s for name_s, s in sections if name_s == target)`. -/
def sectionJoin (sections : List (String × List Char)) (target : String) :
    List Char :=
  joinNl ((sections.filter (fun p => p.1 = target)).map (·.2))

/-- `extract_resume_data` from src/resume_parser.py, with file reading
abstracted as the raw text argument. -/
def extract_resume_data (nlp : Option NerModel) (raw : List Char) : ResumeData :=
  let text := clean_text raw
  let sections := split_sections text
  let skillsSec := sectionJoin sections "skills"
  { name := guess_name nlp text
  , email := extract_email text
  , phone := extract_phone text
  , education := extract_education (sectionJoin sections "education")
  , experience := extract_experience (sectionJoin sections "experience")
  , skills := find_skills (if skillsSec = [] then text else skillsSec) []
  , projects := extract_projects (sectionJoin sections "projects")
  , certifications := extract_certs (sectionJoin sections "certifications")
  , linkedin := extract_linkedin text
  , github := extract_github text
  , raw_text := text }

/-!
### Job parser (src/job_parser.py)
-/

/-- The bullet-marker strip set `" -•\t"` of `_extract_bullets`. -/
def bulletStripSet : List Char := [' ', '-', '•', '\t']

/-- `_extract_bullets` from src/job_parser.py: lines are the non-empty
(whitespace-stripped) lines, each stripped of the characters in `" -•\t"`;
bullet lines are those starting with `-`, `*` or `•`, or whose first two
characters are digits (`ln[:2].isdigit()`); if there is no bullet line the
first 20 lines are returned. -/
def extract_bullets (sectionText : List Char) : List (List Char) :=
  let lines := ((splitNl sectionText).filter (fun ln => pyStrip ln ≠ [])).map
    (pyStripSet bulletStripSet)
  let bullets := lines.filter (fun ln =>
    (match ln with
     | c :: _ => c = '-' || c = '*' || c = '•'
     | [] => false)
    || (let h := ln.take 2; !h.isEmpty && h.all isDigitC))
  if bullets ≠ [] then bullets else lines.take 20

/-- `_find_section` from src/job_parser.py. -/
def find_section (text : List Char) (names : List String) : List Char :=
  match (split_sections text).find? (fun p => names.contains p.1) with
  | some p => p.2
  | none => []

/-- The dict returned by `extract_job_data`. -/
structure JobData where
  title : Option (List Char)
  company : Option (List Char)
  skills_required : List (List Char)
  experience_required : Option (List Char)
  education_required : Option (List Char)
  responsibilities : List (List Char)
  location : Option (List Char)
  raw_text : List Char
  deriving DecidableEq, Repr

/-- The keyword-line fallback for a missing section: join the document lines
containing one of the loose keyword cues. -/
def keywordLines (text : List Char) (keys : List (List Char)) : List Char :=
  joinNl ((splitNl text).filter (fun ln =>
    keys.any (fun k => containsSub k (lowerL ln))))

/-- `extract_job_data` from src/job_parser.py, with file reading abstracted
as the raw text argument. -/
def extract_job_data (raw : List Char) : JobData :=
  let text := clean_text raw
  let respSec0 := find_section text ["responsibilities"]
  let respSec := if respSec0 = [] then
      keywordLines text ["responsibilities".toList, "you will".toList,
        "you'll".toList]
    else respSec0
  let reqSec0 := find_section text ["requirements"]
  let reqSec := if reqSec0 = [] then
      keywordLines text ["requirements".toList, "must have".toList,
        "qualifications".toList]
    else reqSec0
  { title := extract_first_match TITLE_RE text
  , company := extract_first_match COMPANY_RE text
  , skills_required := find_skills (reqSec ++ '\n' :: text) []
  , experience_required :=
      extract_first_match EXPERIENCE_RE (if reqSec = [] then text else reqSec)
  , education_required :=
      extract_first_match EDUCATION_RE (if reqSec = [] then text else reqSec)
  , responsibilities := extract_bullets respSec
  , location := extract_first_match LOCATION_RE text
  , raw_text := text }

/-!
### ParserManager (src/manager.py)
-/

/-- The `DocType` literal of src/manager.py. -/
inductive DocType where
  | resume | job | unknown
  deriving DecidableEq, Repr

/-- Resume indicator phrases of `detect_file_type`. -/
def resume_markers : List (List Char) :=
  [ "resume".toList, "curriculum vitae".toList, "cv".toList,
    "skills".toList, "experience".toList, "education".toList,
    "linkedin.com/in/".toList ]

/-- Job indicator phrases of `detect_file_type`. -/
def job_markers : List (List Char) :=
  [ "job title".toList, "responsibilities".toList, "requirements".toList,
    "what you'll do".toList, "what you'll need".toList, "company".toList,
    "employer".toList ]

/-- The marker score: number of phrases present as substrings of the
lowercased cleaned text (each counted at most once). -/
def markerScore (markers : List (List Char)) (raw : List Char) : Nat :=
  (markers.filter (fun m => containsSub m (lowerL (clean_text raw)))).length

/-- `ParserManager.detect_file_type` from src/manager.py, on raw text. -/
def detect_file_type (raw : List Char) : DocType :=
  let rs := markerScore resume_markers raw
  let js := markerScore job_markers raw
  if rs = 0 ∧ js = 0 then .unknown
  else if js ≤ rs then .resume
  else .job

/-- The `data` field of the schema returned by `ParserManager.parse`. -/
inductive ParseData where
  | resumeD (d : ResumeData)
  | jobD (d : JobData)
  | emptyD
  deriving DecidableEq, Repr

/-- The `normalized` unified view for resumes (src/manager.py lines 75-89). -/
structure NormResume where
  name : Option (List Char)
  email : Option (List Char)
  phone : Option (List Char)
  linkedin : Option (List Char)
  github : Option (List Char)
  skills : List (List Char)
  education : List (List Char)
  experience : List (List Char)
  projects : List (List Char)
  certifications : List (List Char)
  raw_text : List Char
  deriving DecidableEq, Repr

/-- The `normalized` unified view for jobs (src/manager.py lines 94-105). -/
structure NormJob where
  title : Option (List Char)
  company : Option (List Char)
  location : Option (List Char)
  skills : List (List Char)
  experience : Option (List Char)
  education : Option (List Char)
  responsibilities : List (List Char)
  raw_text : List Char
  deriving DecidableEq, Repr

/-- The `normalized` field of the parse schema. -/
inductive NormView where
  | resumeN (n : NormResume)
  | jobN (n : NormJob)
  | unknownN (raw_text : List Char)
  deriving DecidableEq, Repr

/-- The schema returned by `ParserManager.parse`. -/
structure ParseResult where
  dtype : DocType
  data : ParseData
  normalized : NormView
  deriving DecidableEq, Repr

/-- The resume projection built by `ParserManager.parse`. -/
def normalizeResume (d : ResumeData) : NormResume :=
  { name := d.name, email := d.email, phone := d.phone
  , linkedin := d.linkedin, github := d.github, skills := d.skills
  , education := d.education, experience := d.experience
  , projects := d.projects, certifications := d.certifications
  , raw_text := d.raw_text }

/-- The job projection built by `ParserManager.parse`. -/
def normalizeJob (d : JobData) : NormJob :=
  { title := d.title, company := d.company, location := d.location
  , skills := d.skills_required, experience := d.experience_required
  , education := d.education_required
  , responsibilities := d.responsibilities, raw_text := d.raw_text }

/-- `ParserManager.parse` from src/manager.py, with file reading abstracted:
the raw text stands for the text read from the file path (the standalone
extractors re-read the same path and obtain the same text). -/
def parse (nlp : Option NerModel) (raw : List Char) : ParseResult :=
  match detect_file_type raw with
  | .resume =>
    let data := extract_resume_data nlp raw
    ⟨.resume, .resumeD data, .resumeN (normalizeResume data)⟩
  | .job =>
    let data := extract_job_data raw
    ⟨.job, .jobD data, .jobN (normalizeJob data)⟩
  | .unknown => ⟨.unknown, .emptyD, .unknownN (clean_text raw)⟩

/-!
### JSON-level key structure (for the output-schema claims)
-/

/-- JSON-serializable values, as far as the parser outputs need. -/
inductive JVal where
  | jnull
  | jstr (s : List Char)
  | jlist (l : List (List Char))
  | jobj (fields : List (String × JVal))
  | jtype (t : DocType)

/-- An optional string field as JSON: `None` becomes `null`. -/
def optJ : Option (List Char) → JVal
  | none => .jnull
  | some s => .jstr s

/-- The dict literal returned by `extract_resume_data`, key order as in the
source. -/
def resumeToDict (d : ResumeData) : List (String × JVal) :=
  [ ("name", optJ d.name), ("email", optJ d.email), ("phone", optJ d.phone)
  , ("education", .jlist d.education), ("experience", .jlist d.experience)
  , ("skills", .jlist d.skills), ("projects", .jlist d.projects)
  , ("certifications", .jlist d.certifications)
  , ("linkedin", optJ d.linkedin), ("github", optJ d.github)
  , ("raw_text", .jstr d.raw_text) ]

/-- The dict literal returned by `extract_job_data`, key order as in the
source. -/
def jobToDict (d : JobData) : List (String × JVal) :=
  [ ("title", optJ d.title), ("company", optJ d.company)
  , ("skills_required", .jlist d.skills_required)
  , ("experience_required", optJ d.experience_required)
  , ("education_required", optJ d.education_required)
  , ("responsibilities", .jlist d.responsibilities)
  , ("location", optJ d.location), ("raw_text", .jstr d.raw_text) ]

/-- The data dict of a parse result (`{}` for unknown documents). -/
def parseDataToDict : ParseData → List (String × JVal)
  | .resumeD d => resumeToDict d
  | .jobD d => jobToDict d
  | .emptyD => []

/-- The normalized dict of a parse result, key order as in the source. -/
def normViewToDict : NormView → List (String × JVal)
  | .resumeN n =>
    [ ("name", optJ n.name)
    , ("contact", .jobj [("email", optJ n.email), ("phone", optJ n.phone),
        ("linkedin", optJ n.linkedin), ("github", optJ n.github)])
    , ("skills", .jlist n.skills), ("education", .jlist n.education)
    , ("experience", .jlist n.experience), ("projects", .jlist n.projects)
    , ("certifications", .jlist n.certifications)
    , ("raw_text", .jstr n.raw_text) ]
  | .jobN n =>
    [ ("title", optJ n.title), ("company", optJ n.company)
    , ("location", optJ n.location), ("skills", .jlist n.skills)
    , ("requirements", .jobj [("experience", optJ n.experience),
        ("education", optJ n.education)])
    , ("responsibilities", .jlist n.responsibilities)
    , ("raw_text", .jstr n.raw_text) ]
  | .unknownN raw => [("raw_text", .jstr raw)]

/-- The schema dict returned by `ParserManager.parse`. -/
def parseToDict (r : ParseResult) : List (String × JVal) :=
  [ ("type", .jtype r.dtype), ("data", .jobj (parseDataToDict r.data))
  , ("normalized", .jobj (normViewToDict r.normalized)) ]

/-!
### Predicates used to state the claims
-/

/-- Whitespace characters in this text are all plain spaces. -/
def onlySp (l : List Char) : Prop := ∀ c ∈ l, isPySpace c → c = ' '

/-- No two adjacent characters are both spaces. -/
def NoAdjSp (l : List Char) : Prop :=
  List.Chain' (fun a b => ¬(a = ' ' ∧ b = ' ')) l

/-- The lookbehind condition at the left edge of an occurrence: `a` is the
text before the occurrence; it must not end with a `[\w+#.]` character. -/
def lbOkL (a : List Char) : Prop :=
  ∀ c, a.getLast? = some c → skillBeforeClass c = false

/-- The lookahead condition at the right edge of an occurrence: `b` is the
text after the occurrence; it must not start with a `[\w+-]` character. -/
def laOkL (b : List Char) : Prop :=
  ∀ c, b.head? = some c → skillAfterClass c = false

/-- Declarative form of the boundary-aware skill occurrence: `s` occurs
somewhere in `l` with both lookaround conditions satisfied. -/
def bOcc (s l : List Char) : Prop :=
  ∃ a b, l = a ++ s ++ b ∧ lbOkL a ∧ laOkL b

/-- C3's strict reading of a header line: after trimming, the line equals a
configured marker phrase, or a marker phrase directly followed by a colon
(case-insensitively, nothing else on the line). -/
def claimHeaderStrict (ln : List Char) : Bool :=
  headerPairs.any (fun p =>
    lowerL (pyStrip ln) = lowerL p.1 ∨ lowerL (pyStrip ln) = lowerL (p.1 ++ [':']))

/-- The header condition actually implemented by the source's anchored
regex, on a trimmed line: the marker phrase, optionally followed by
whitespace and a trailing colon. -/
def headerAmended (ln : List Char) : Prop :=
  ∃ p ∈ headerPairs, ∃ h' w : List Char,
    lowerL h' = lowerL p.1 ∧ (∀ c ∈ w, isPySpace c = true) ∧
    (pyStrip ln = h' ∨ pyStrip ln = h' ++ w ++ [':'])

/-- C5's claimed lookahead class: a word character or `-` (the source also
rejects `+`). -/
def claimAfterClass (c : Char) : Bool := isWordC c || c = '-'

/-- `matchCore` with C5's claimed lookahead class. -/
def claimMatchCore (s l : List Char) : Bool :=
  match s, l with
  | [], [] => true
  | [], c :: _ => !claimAfterClass c
  | _ :: _, [] => false
  | c :: s', d :: l' => c == d && claimMatchCore s' l'

/-- C5's claimed occurrence condition, read literally: the term occurs in
the lowercased text (no padding), not immediately preceded by a `[\w+#.]`
character and not immediately followed by a word character or `-`. -/
def claimSkillOccurs (s : List Char) : Option Char → List Char → Bool
  | prev, [] =>
    (match prev with | none => true | some c => !skillBeforeClass c)
      && claimMatchCore s []
  | prev, c :: rest =>
    ((match prev with | none => true | some c' => !skillBeforeClass c')
      && claimMatchCore s (c :: rest))
      || claimSkillOccurs s (some c) rest

/-- C5's claimed occurrence condition over a whole text. -/
def claimSkillOccursIn (s text : List Char) : Bool :=
  claimSkillOccurs s none (lowerL text)

/-!
## Lemmas on the cleaning pipeline
-/

theorem squeezeSp_head (c : Char) (l : List Char) :
    (squeezeSp (c :: l)).head? = some c := by
  induction l generalizing c with
  | nil => rfl
  | cons d rest ih =>
    show (squeezeSp (c :: d :: rest)).head? = some c
    rw [squeezeSp]
    by_cases h : c = ' ' ∧ d = ' '
    · rw [if_pos h, ih d, h.1, h.2]
    · rw [if_neg h]; rfl

theorem squeezeSp_chain (l : List Char) : NoAdjSp (squeezeSp l) := by
  induction l with
  | nil => exact List.chain'_nil
  | cons c rest ih =>
    cases rest with
    | nil => exact List.chain'_singleton c
    | cons d rest' =>
      show NoAdjSp (squeezeSp (c :: d :: rest'))
      rw [squeezeSp]
      by_cases h : c = ' ' ∧ d = ' '
      · rw [if_pos h]; exact ih
      · rw [if_neg h]
        refine List.chain'_cons'.mpr ⟨?_, ih⟩
        intro b hb
        rw [squeezeSp_head d rest'] at hb
        intro hcd
        exact h ⟨hcd.1, Option.some_injective _ hb ▸ hcd.2⟩

theorem squeezeSp_subset {c : Char} : ∀ {l : List Char}, c ∈ squeezeSp l → c ∈ l := by
  intro l
  induction l with
  | nil => exact fun h => h
  | cons a rest ih =>
    cases rest with
    | nil => exact fun h => h
    | cons d rest' =>
      show c ∈ squeezeSp (a :: d :: rest') → _
      rw [squeezeSp]
      by_cases h : a = ' ' ∧ d = ' '
      · rw [if_pos h]
        exact fun hm => List.mem_cons_of_mem a (ih hm)
      · rw [if_neg h]
        intro hm
        rcases List.mem_cons.mp hm with he | hm'
        · exact he ▸ List.mem_cons_self a _
        · exact List.mem_cons_of_mem a (ih hm')

theorem squeezeSp_eq_self : ∀ {l : List Char}, NoAdjSp l → squeezeSp l = l := by
  intro l
  induction l with
  | nil => exact fun _ => rfl
  | cons c rest ih =>
    cases rest with
    | nil => exact fun _ => rfl
    | cons d rest' =>
      intro h
      show squeezeSp (c :: d :: rest') = _
      rw [squeezeSp]
      have hcd : ¬(c = ' ' ∧ d = ' ') := (List.chain'_cons.mp h).1
      rw [if_neg hcd, ih h.tail]

theorem collapseWs_onlySp (l : List Char) : onlySp (collapseWs l) := by
  intro c hc hws
  have hm := squeezeSp_subset hc
  rcases List.mem_map.mp hm with ⟨c', _, he⟩
  by_cases h : isPySpace c' = true
  · rw [if_pos h] at he; exact he.symm
  · rw [if_neg h] at he; exact absurd (he ▸ hws) h

theorem collapseWs_chain (l : List Char) : NoAdjSp (collapseWs l) :=
  squeezeSp_chain _

theorem chain'_dropWhile {R : Char → Char → Prop} (p : Char → Bool) :
    ∀ {l : List Char}, List.Chain' R l → List.Chain' R (l.dropWhile p) := by
  intro l
  induction l with
  | nil => exact fun h => h
  | cons c rest ih =>
    intro h
    rw [List.dropWhile_cons]
    by_cases hp : p c = true
    · rw [if_pos hp]; exact ih h.tail
    · rw [if_neg hp]; exact h

theorem NoAdjSp.rev {l : List Char} (h : NoAdjSp l) : NoAdjSp l.reverse := by
  rw [NoAdjSp, List.chain'_reverse]
  exact h.imp (fun a b hab => fun hc => hab ⟨hc.2, hc.1⟩)

theorem chain'_dropTrailing (p : Char → Bool) {l : List Char}
    (h : NoAdjSp l) : NoAdjSp (dropTrailing p l) :=
  NoAdjSp.rev (chain'_dropWhile p (NoAdjSp.rev h))

theorem onlySp_mono {l l' : List Char} (sub : ∀ c ∈ l', c ∈ l)
    (h : onlySp l) : onlySp l' :=
  fun c hc hw => h c (sub c hc) hw

theorem dropTrailing_subset {c : Char} {l : List Char} (p : Char → Bool)
    (h : c ∈ dropTrailing p l) : c ∈ l := by
  rw [dropTrailing, List.mem_reverse] at h
  exact List.mem_reverse.mp ((List.dropWhile_suffix p).subset h)

theorem head_dropWhile_not (p : Char → Bool) :
    ∀ (l : List Char) (c : Char), (l.dropWhile p).head? = some c → p c = false := by
  intro l
  induction l with
  | nil => intro c h; cases h
  | cons a rest ih =>
    intro c h
    rw [List.dropWhile_cons] at h
    by_cases hp : p a = true
    · rw [if_pos hp] at h; exact ih c h
    · rw [if_neg hp] at h
      cases h
      exact Bool.not_eq_true _ ▸ hp

theorem pyStrip_getLast {l : List Char} {c : Char}
    (h : (pyStrip l).getLast? = some c) : isPySpace c = false := by
  rw [pyStrip, dropTrailing, List.getLast?_reverse] at h
  exact head_dropWhile_not isPySpace _ c h

theorem pyStrip_head {l : List Char} {c : Char}
    (h : (pyStrip l).head? = some c) : isPySpace c = false := by
  rcases (List.dropWhile_suffix (l := (l.dropWhile isPySpace).reverse)
      isPySpace) with ⟨u, hu⟩
  rw [pyStrip, dropTrailing] at h
  have hx : l.dropWhile isPySpace
      = ((l.dropWhile isPySpace).reverse.dropWhile isPySpace).reverse
        ++ u.reverse := by
    have := congrArg List.reverse hu
    rw [List.reverse_append, List.reverse_reverse] at this
    exact this.symm
  apply head_dropWhile_not isPySpace l c
  rw [hx, List.head?_append_of_ne_nil]
  · exact h
  · intro he
    rw [he] at h
    cases h

theorem dropWhile_eq_self_of_head {p : Char → Bool} {l : List Char}
    (h : ∀ c, l.head? = some c → p c = false) : l.dropWhile p = l := by
  cases l with
  | nil => rfl
  | cons c rest =>
    rw [List.dropWhile_cons, if_neg]
    rw [h c rfl]
    exact fun hc => nomatch hc

theorem pyStrip_eq_self {l : List Char}
    (h3 : ∀ c, l.head? = some c → isPySpace c = false)
    (h4 : ∀ c, l.getLast? = some c → isPySpace c = false) : pyStrip l = l := by
  rw [pyStrip, dropWhile_eq_self_of_head h3, dropTrailing,
    dropWhile_eq_self_of_head (fun c hc =>
      h4 c (by rw [List.head?_reverse] at hc; exact hc)),
    List.reverse_reverse]

theorem map_id_of_mem {f : Char → Char} :
    ∀ {l : List Char}, (∀ c ∈ l, f c = c) → l.map f = l := by
  intro l
  induction l with
  | nil => exact fun _ => rfl
  | cons c rest ih =>
    intro h
    rw [List.map_cons, h c (List.mem_cons_self c rest),
      ih (fun d hd => h d (List.mem_cons_of_mem c hd))]

theorem replaceCrlf_eq_self : ∀ {l : List Char}, '\r' ∉ l → replaceCrlf l = l := by
  intro l
  induction l with
  | nil => exact fun _ => rfl
  | cons c rest ih =>
    intro h
    have hc : c ≠ '\r' := fun e => h (e ▸ List.mem_cons_self c rest)
    have hr : '\r' ∉ rest := fun m => h (List.mem_cons_of_mem c m)
    cases rest with
    | nil => rfl
    | cons d rest' =>
      show replaceCrlf (c :: d :: rest') = _
      rw [replaceCrlf, if_neg (fun hp => hc hp.1), ih hr]

/-- The shape invariant of cleaned text: whitespace only as single interior
spaces. -/
def CleanShape (l : List Char) : Prop :=
  onlySp l ∧ NoAdjSp l ∧
    (∀ c, l.head? = some c → isPySpace c = false) ∧
    (∀ c, l.getLast? = some c → isPySpace c = false)

theorem clean_text_fixed {l : List Char} (h : CleanShape l) :
    clean_text l = l := by
  obtain ⟨h1, h2, h3, h4⟩ := h
  by_cases hz : l = []
  · rw [hz]; rfl
  have hnr : '\r' ∉ l := fun m => by
    have := h1 '\r' m (by rfl)
    cases this
  have hmap1 : l.map nbspToSpace = l := by
    apply map_id_of_mem
    intro c hc
    rw [nbspToSpace]
    by_cases he : c = '\xa0'
    · exfalso
      have h' := h1 c hc (by rw [he]; rfl)
      rw [h'] at he
      exact absurd he (by decide)
    · rw [if_neg he]
  have hmap2 : l.map crToNl = l := by
    apply map_id_of_mem
    intro c hc
    rw [crToNl]
    by_cases he : c = '\r'
    · rw [he] at hc
      exact absurd hc hnr
    · rw [if_neg he]
  have hcoll : collapseWs l = l := by
    rw [collapseWs, map_id_of_mem, squeezeSp_eq_self h2]
    intro c hc
    by_cases hw : isPySpace c = true
    · rw [if_pos hw, h1 c hc hw]
    · rw [if_neg hw]
  rw [clean_text, if_neg hz, hmap1, replaceCrlf_eq_self hnr, hmap2, hcoll,
    pyStrip_eq_self h3 h4]

theorem clean_text_shape (l : List Char) : CleanShape (clean_text l) := by
  by_cases hz : l = []
  · subst hz
    refine ⟨?_, ?_, ?_, ?_⟩
    · intro c hc _
      exact absurd hc (List.not_mem_nil c)
    · exact List.chain'_nil
    · intro c hc
      simp [clean_text] at hc
    · intro c hc
      simp [clean_text] at hc
  rw [clean_text, if_neg hz]
  set m := ((replaceCrlf (l.map nbspToSpace)).map crToNl) with hm
  refine ⟨?_, ?_, ?_, ?_⟩
  · exact onlySp_mono
      (fun c hc => (List.dropWhile_suffix isPySpace).subset
        (dropTrailing_subset isPySpace hc))
      (collapseWs_onlySp m)
  · exact chain'_dropTrailing isPySpace (chain'_dropWhile isPySpace (collapseWs_chain m))
  · exact fun c hc => pyStrip_head hc
  · exact fun c hc => pyStrip_getLast hc

/-- **C8.** Text normalization is idempotent:
`clean_text (clean_text x) = clean_text x` for every text `x`. -/
theorem C8_clean_text_idempotent (x : List Char) :
    clean_text (clean_text x) = clean_text x :=
  clean_text_fixed (clean_text_shape x)

/-!
## Lemmas on `split_sections` over cleaned text
-/

theorem clean_text_no_nl {raw : List Char} : '\n' ∉ clean_text raw := by
  intro m
  have := (clean_text_shape raw).1 '\n' m (by rfl)
  cases this

theorem splitNl_of_no_nl : ∀ {l : List Char}, '\n' ∉ l → splitNl l = [l] := by
  intro l
  induction l with
  | nil => exact fun _ => rfl
  | cons c rest ih =>
    intro h
    have hc : c ≠ '\n' := fun e => h (e ▸ List.mem_cons_self c rest)
    show splitNl (c :: rest) = _
    rw [splitNl, ih (fun m => h (List.mem_cons_of_mem c m))]
    show (if c = '\n' then [] :: rest :: [] else (c :: rest) :: []) = _
    rw [if_neg hc]

theorem pyStrip_clean (raw : List Char) :
    pyStrip (clean_text raw) = clean_text raw :=
  pyStrip_eq_self (clean_text_shape raw).2.2.1 (clean_text_shape raw).2.2.2

theorem split_sections_clean_eq (raw : List Char) :
    split_sections (clean_text raw) = [("body", clean_text raw)] := by
  by_cases hz : clean_text raw = []
  · rw [hz]; rfl
  rw [split_sections, if_neg hz, splitNl_of_no_nl clean_text_no_nl]
  have hline : (([clean_text raw].map pyStrip).filter (· ≠ []))
      = [clean_text raw] := by
    rw [List.map_cons, List.map_nil, pyStrip_clean raw]
    rw [List.filter_cons]
    rw [if_pos (by simpa using hz)]
    rfl
  rw [hline]
  cases hh : headerOf (clean_text raw) with
  | some name =>
    simp [splitLoop, hh]
  | none =>
    simp [splitLoop, hh, joinNl, pyStrip_clean raw]

/-- **C4.**  The cleaning step removes every newline (each maximal
whitespace run becomes one space), and consequently `split_sections`
applied to cleaned text always returns the single section
`[("body", cleaned text)]`: header-based segmentation never produces a
named section in the actual pipeline. -/
theorem C4_cleaned_text_single_body (raw : List Char) :
    '\n' ∉ clean_text raw ∧
      split_sections (clean_text raw) = [("body", clean_text raw)] :=
  ⟨clean_text_no_nl, split_sections_clean_eq raw⟩

/-!
## Lemmas on header matching and the section loop
-/

theorem dropWhile_append_of_all {p : Char → Bool} :
    ∀ {w : List Char} (l : List Char), (∀ c ∈ w, p c = true) →
      (w ++ l).dropWhile p = l.dropWhile p := by
  intro w
  induction w with
  | nil => exact fun _ _ => rfl
  | cons c w' ih =>
    intro l hw
    rw [List.cons_append, List.dropWhile_cons,
      if_pos (hw c (List.mem_cons_self c w')),
      ih l (fun d hd => hw d (List.mem_cons_of_mem c hd))]

theorem dropCI_iff : ∀ (h s r : List Char),
    dropCI h s = some r ↔ ∃ h', lowerL h' = lowerL h ∧ s = h' ++ r := by
  intro h
  induction h with
  | nil =>
    intro s r
    constructor
    · intro he
      cases he
      exact ⟨[], rfl, rfl⟩
    · rintro ⟨h', hl, hs⟩
      cases h' with
      | nil => rw [hs]; rfl
      | cons a t => cases hl
  | cons c h' ih =>
    intro s r
    cases s with
    | nil =>
      constructor
      · intro he; cases he
      · rintro ⟨h'', hl, hs⟩
        cases h'' with
        | nil => cases hl
        | cons a t => cases hs
    | cons d s' =>
      show (if lowerChar c = lowerChar d then dropCI h' s' else none) = some r ↔ _
      by_cases hcd : lowerChar c = lowerChar d
      · rw [if_pos hcd, ih s' r]
        constructor
        · rintro ⟨t, hl, hs⟩
          refine ⟨d :: t, ?_, by rw [hs]; rfl⟩
          show lowerChar d :: lowerL t = lowerChar c :: lowerL h'
          rw [hl, hcd]
        · rintro ⟨h'', hl, hs⟩
          cases h'' with
          | nil => cases hl
          | cons a t =>
            simp only [lowerL, List.map_cons] at hl
            injection hl with hl1 hl2
            injection hs with ha hs'
            exact ⟨t, hl2, hs'⟩
      · rw [if_neg hcd]
        constructor
        · intro he; cases he
        · rintro ⟨h'', hl, hs⟩
          cases h'' with
          | nil => cases hl
          | cons a t =>
            simp only [lowerL, List.map_cons] at hl
            injection hl with hl1 hl2
            injection hs with ha hs'
            rw [← ha] at hl1
            exact absurd hl1.symm hcd

theorem pyStrip_idem (l : List Char) : pyStrip (pyStrip l) = pyStrip l :=
  pyStrip_eq_self (fun _ hc => pyStrip_head hc) (fun _ hc => pyStrip_getLast hc)

theorem pyStrip_dropWhile (l : List Char) :
    (pyStrip l).dropWhile isPySpace = pyStrip l :=
  dropWhile_eq_self_of_head (fun _ hc => pyStrip_head hc)

theorem headerLineMatches_strip_iff (h ln : List Char) :
    headerLineMatches h (pyStrip ln) = true ↔
      ∃ h' w, lowerL h' = lowerL h ∧ (∀ c ∈ w, isPySpace c = true) ∧
        (pyStrip ln = h' ∨ pyStrip ln = h' ++ w ++ [':']) := by
  rw [headerLineMatches, pyStrip_dropWhile]
  cases hd : dropCI h (pyStrip ln) with
  | none =>
    constructor
    · intro he; cases he
    · rintro ⟨h', w, hl, hw, hor⟩
      rcases hor with he | he
      · have : dropCI h (pyStrip ln) = some [] :=
          (dropCI_iff h _ []).mpr ⟨h', hl, by rw [he, List.append_nil]⟩
        rw [this] at hd; cases hd
      · have : dropCI h (pyStrip ln) = some (w ++ [':']) :=
          (dropCI_iff h _ _).mpr ⟨h', hl, by rw [he, List.append_assoc]⟩
        rw [this] at hd; cases hd
  | some r =>
    obtain ⟨h', hl, hs⟩ := (dropCI_iff h _ r).mp hd
    show (r.dropWhile isPySpace = [] || r.dropWhile isPySpace = [':']) = true ↔ _
    rw [Bool.or_eq_true, decide_eq_true_eq, decide_eq_true_eq]
    constructor
    · rintro (he | he)
      · have hrw : ∀ c ∈ r, isPySpace c = true := by
          intro c hc
          exact List.dropWhile_eq_nil_iff.mp he c hc
        have hr : r = [] := by
          by_contra hne
          have hlast : (pyStrip ln).getLast? = r.getLast? := by
            rw [hs, List.getLast?_append_of_ne_nil h' hne]
          cases hre : r.getLast? with
          | none => exact hne (List.getLast?_eq_none_iff.mp hre)
          | some c =>
            have hws : isPySpace c = false :=
              pyStrip_getLast (by rw [hlast, hre])
            have hmem : c ∈ r := List.mem_of_mem_getLast? hre
            rw [hrw c hmem] at hws
            cases hws
        exact ⟨h', [], hl, fun c hc => absurd hc (List.not_mem_nil c),
          Or.inl (by rw [hs, hr, List.append_nil])⟩
      · refine ⟨h', r.takeWhile isPySpace, hl,
          fun c hc => List.mem_takeWhile_imp hc, Or.inr ?_⟩
        rw [hs, List.append_assoc, ← he, List.takeWhile_append_dropWhile]
    · rintro ⟨h'', w, hl2, hw, hor⟩
      have hlen : h''.length = h'.length := by
        have e1 : (lowerL h'').length = (lowerL h).length := by rw [hl2]
        have e2 : (lowerL h').length = (lowerL h).length := by rw [hl]
        rw [lowerL, List.length_map] at e1 e2
        rw [e1, e2]
      rcases hor with he | he
      · have he2 : h'' ++ ([] : List Char) = h' ++ r := by
          rw [List.append_nil, ← he, hs]
        have hr : ([] : List Char) = r := List.append_inj_right he2 hlen
        exact Or.inl (by rw [← hr]; rfl)
      · have he2 : h'' ++ (w ++ [':']) = h' ++ r := by
          rw [← List.append_assoc, ← he, hs]
        have hr : w ++ [':'] = r := List.append_inj_right he2 hlen
        rw [← hr, dropWhile_append_of_all [':'] hw]
        exact Or.inr rfl

theorem headerOf_strip_iff (ln : List Char) :
    (headerOf (pyStrip ln)).isSome = true ↔ headerAmended ln := by
  rw [headerOf]
  cases hf : headerPairs.find? (fun p => headerLineMatches p.1 (pyStrip ln)) with
  | none =>
    simp only [Option.map_none', Option.isSome_none]
    constructor
    · intro he; cases he
    · rintro ⟨p, hp, h', w, hl, hw, hor⟩
      have h1 : headerLineMatches p.1 (pyStrip ln) = true :=
        (headerLineMatches_strip_iff p.1 ln).mpr ⟨h', w, hl, hw, hor⟩
      exact absurd h1 (List.find?_eq_none.mp hf p hp)
  | some p =>
    simp only [Option.map_some', Option.isSome_some, true_iff]
    have hp := List.find?_some hf
    have hmem := List.mem_of_find?_eq_some hf
    obtain ⟨h', w, hl, hw, hor⟩ :=
      (headerLineMatches_strip_iff p.1 ln).mp hp
    exact ⟨p, hmem, h', w, hl, hw, hor⟩

theorem pyStrip_ne_nil_of_head {l : List Char} {c : Char}
    (hh : l.head? = some c) (hc : isPySpace c = false) : pyStrip l ≠ [] := by
  intro he
  rw [pyStrip, dropWhile_eq_self_of_head (fun d hd => by
      rw [hh] at hd; cases hd; exact hc), dropTrailing] at he
  have : l.reverse.dropWhile isPySpace = [] := by
    have := congrArg List.reverse he
    rw [List.reverse_reverse] at this
    rw [this]; rfl
  have hmem : c ∈ l.reverse := List.mem_reverse.mpr (List.mem_of_mem_head? hh)
  have := List.dropWhile_eq_nil_iff.mp this c hmem
  rw [hc] at this
  cases this

/-- The stripped-nonempty invariant of the lines fed to `splitLoop`. -/
def GoodLine (l : List Char) : Prop := l ≠ [] ∧ pyStrip l = l

theorem goodLine_head {l : List Char} (h : GoodLine l) :
    ∃ c, l.head? = some c ∧ isPySpace c = false := by
  obtain ⟨hne, hstrip⟩ := h
  cases hl : l.head? with
  | none => exact absurd (List.head?_eq_none_iff.mp hl) hne
  | some c =>
    refine ⟨c, rfl, ?_⟩
    apply pyStrip_head (l := l)
    rw [hstrip, hl]

theorem pyStrip_join_ne {acc : List (List Char)} (hne : acc ≠ [])
    (hacc : ∀ l ∈ acc, GoodLine l) : pyStrip (joinNl acc) ≠ [] := by
  cases acc with
  | nil => exact absurd rfl hne
  | cons a rest =>
    have ha := hacc a (List.mem_cons_self a rest)
    obtain ⟨c, hc, hcw⟩ := goodLine_head ha
    have hhead : (joinNl (a :: rest)).head? = some c := by
      cases rest with
      | nil => exact hc
      | cons b rs =>
        show (a ++ '\n' :: joinNl (b :: rs)).head? = some c
        rw [List.head?_append_of_ne_nil _ ha.1, hc]
    exact pyStrip_ne_nil_of_head hhead hcw

theorem splitLoop_body_ne :
    ∀ (lines : List (List Char)) (name : String) (acc : List (List Char)),
      (∀ l ∈ acc, GoodLine l) → (∀ l ∈ lines, GoodLine l) →
      ∀ pr ∈ splitLoop name acc lines, pr.2 ≠ [] := by
  intro lines
  induction lines with
  | nil =>
    intro name acc hacc _ pr hpr
    rw [splitLoop] at hpr
    by_cases ha : acc = []
    · rw [if_pos ha] at hpr
      exact absurd hpr (List.not_mem_nil pr)
    · rw [if_neg ha] at hpr
      rcases List.mem_singleton.mp hpr with he
      rw [he]
      exact pyStrip_join_ne ha hacc
  | cons ln rest ih =>
    intro name acc hacc hlines pr hpr
    have hlg := hlines ln (List.mem_cons_self ln rest)
    have hrest : ∀ l ∈ rest, GoodLine l :=
      fun l hl => hlines l (List.mem_cons_of_mem ln hl)
    cases hh : headerOf ln with
    | some nm =>
      simp only [splitLoop, hh] at hpr
      by_cases ha : acc = []
      · rw [if_pos ha] at hpr
        exact ih nm [] (fun l hl => absurd hl (List.not_mem_nil l)) hrest pr hpr
      · rw [if_neg ha] at hpr
        rcases List.mem_cons.mp hpr with he | hm
        · rw [he]
          exact pyStrip_join_ne ha hacc
        · exact ih nm [] (fun l hl => absurd hl (List.not_mem_nil l)) hrest pr hm
    | none =>
      simp only [splitLoop, hh] at hpr
      refine ih name (acc ++ [ln]) ?_ hrest pr hpr
      intro l hl
      rcases List.mem_append.mp hl with hm | hm
      · exact hacc l hm
      · rw [List.mem_singleton.mp hm]
        exact hlg

theorem splitLoop_no_header :
    ∀ (lines : List (List Char)) (name : String) (acc : List (List Char)),
      (∀ ln ∈ lines, headerOf ln = none) →
      splitLoop name acc lines = splitLoop name (acc ++ lines) [] := by
  intro lines
  induction lines with
  | nil => intro name acc _; rw [List.append_nil]
  | cons ln rest ih =>
    intro name acc hno
    simp only [splitLoop, hno ln (List.mem_cons_self ln rest)]
    rw [ih name (acc ++ [ln]) (fun l hl => hno l (List.mem_cons_of_mem ln hl))]
    rw [List.append_assoc]
    rfl

theorem goodLine_of_mem_lines {text l : List Char}
    (h : l ∈ ((splitNl text).map pyStrip).filter (· ≠ [])) : GoodLine l := by
  obtain ⟨hm, hne⟩ := List.mem_filter.mp h
  obtain ⟨x, _, he⟩ := List.mem_map.mp hm
  refine ⟨by simpa using hne, ?_⟩
  rw [← he, pyStrip_idem]

/-- **C3 (counterexample).**  The line `"skills :"` (space before the colon)
does not, after trimming, equal any configured marker phrase or marker
phrase followed directly by a colon — so under the claim it is not a header
line and `"skills :\npython"` should come back as one body section — yet
`split_sections` treats it as a `skills` header. -/
theorem C3_counterexample :
    claimHeaderStrict "skills :".toList = false ∧
      split_sections "skills :\npython".toList
        = [("skills", "python".toList)] := by
  constructor
  · decide
  · rfl

/-- **C3 (amended).**  A trimmed line is a header iff it case-insensitively
equals a configured marker phrase, optionally followed by whitespace and a
trailing colon (the source's `\s*:?$` also admits whitespace before the
colon); sections are flushed only with non-empty accumulated bodies (an
empty section is never emitted, in particular not between two adjacent
header lines); if no line is a header the whole text comes back as a single
body section holding its trimmed non-empty lines joined by newlines; and
empty input yields a single body section with empty text. -/
theorem C3_amended :
    (∀ ln : List Char, (headerOf (pyStrip ln)).isSome = true ↔ headerAmended ln) ∧
    (∀ text : List Char, ∀ pr ∈ split_sections text, pr.2 = [] →
      split_sections text = [("body", [])]) ∧
    (∀ text : List Char,
      (∀ ln ∈ ((splitNl text).map pyStrip).filter (· ≠ []), headerOf ln = none) →
      ((splitNl text).map pyStrip).filter (· ≠ []) ≠ [] →
      split_sections text
        = [("body",
            pyStrip (joinNl (((splitNl text).map pyStrip).filter (· ≠ []))))]) ∧
    split_sections [] = [("body", [])] := by
  refine ⟨headerOf_strip_iff, ?_, ?_, rfl⟩
  · intro text pr hpr hnil
    by_cases hz : text = []
    · rw [hz]; rfl
    rw [split_sections, if_neg hz] at hpr ⊢
    by_cases hl : ((splitNl text).map pyStrip).filter (· ≠ []) = []
    · rw [if_pos hl] at hpr ⊢
    rw [if_neg hl] at hpr ⊢
    by_cases hs : splitLoop "body" [] (((splitNl text).map pyStrip).filter (· ≠ [])) = []
    · rw [if_pos hs] at hpr
      rcases List.mem_singleton.mp hpr with he
      rw [he] at hnil
      exact absurd hnil hz
    · rw [if_neg hs] at hpr
      have := splitLoop_body_ne _ "body" []
        (fun l h => absurd h (List.not_mem_nil l))
        (fun l h => goodLine_of_mem_lines h) pr hpr
      exact absurd hnil this
  · intro text hno hlne
    have hz : text ≠ [] := by
      intro he
      rw [he] at hlne
      exact hlne rfl
    rw [split_sections, if_neg hz, if_neg hlne]
    rw [splitLoop_no_header _ "body" [] hno]
    rw [List.nil_append, splitLoop, if_neg hlne]
    rw [if_neg (by simp : ¬(([("body",
      pyStrip (joinNl (((splitNl text).map pyStrip).filter (· ≠ []))))] :
        List (String × List Char)) = []))]

/-- Witness for C3 (amended): `"skills:"` satisfies the amended header
condition, and a two-line text with no header lines comes back as a single
body section. -/
theorem C3_amended_witness :
    headerAmended "skills:".toList ∧
      split_sections "abc\ndef".toList = [("body", "abc\ndef".toList)] := by
  constructor
  · exact (C3_amended.1 "skills:".toList).mp (by decide)
  · exact (C3_amended.2.2.1 "abc\ndef".toList (by decide) (by decide)).trans
      (by decide)

/-!
## `find_skills`: C5
-/

/-- **C5 (counterexample).**  On the text `"go+"`, the dictionary term
`"go"` occurs in the lowercased text not immediately preceded by a
`[\w+#.]` character and not immediately followed by a word character or
`-` (it is followed by `+`), so under the claim `find_skills` should return
it — but the source's lookahead class `[\w+-]` also rejects `+`, and
`find_skills "go+"` returns the empty list. -/
theorem C5_counterexample :
    claimSkillOccursIn "go".toList "go+".toList = true ∧
      "go".toList ∈ sortedDict [] ∧
      find_skills "go+".toList [] = [] := by
  refine ⟨by decide, by decide, by decide⟩

/-- **C5 (amended).**  `find_skills` returns the sorted duplicate-free list
of exactly those lowercase dictionary terms with a boundary-aware match in
the lowercased text padded with one leading and one trailing space — not
preceded by a `[\w+#.]` character and not followed by a `[\w+-]` character
(the source also rejects a following `+`, unlike the claim's wording) — and
the four concrete examples hold as stated. -/
theorem C5_amended :
    (∀ (text : List Char) (extra : List (List Char)),
      List.Sorted (· ≤ ·) (find_skills text extra) ∧
      (find_skills text extra).Nodup ∧
      (∀ sk, sk ∈ find_skills text extra ↔
        text ≠ [] ∧ sk ∈ sortedDict extra ∧
          hasBoundedMatch sk (' ' :: lowerL text ++ [' ']) = true)) ∧
    find_skills "Python PYTHON python".toList [] = ["python".toList] ∧
    "go".toList ∈ find_skills "I code in Go.".toList [] ∧
    "go".toList ∉ find_skills "I am going home".toList [] ∧
    "c++".toList ∈ find_skills "c++ and c#".toList [] ∧
    "c#".toList ∈ find_skills "c++ and c#".toList [] := by
  refine ⟨?_, by decide, by decide, by decide, by decide, by decide⟩
  intro text extra
  by_cases hz : text = []
  · subst hz
    refine ⟨List.sorted_nil, List.nodup_nil, ?_⟩
    intro sk
    rw [find_skills]
    simp
  · have hsorted : List.Sorted (· ≤ ·) (sortedDict extra) :=
      List.sorted_insertionSort _ _
    have hnodup : (sortedDict extra).Nodup :=
      ((List.perm_insertionSort (· ≤ ·) _).nodup_iff).mpr (List.nodup_dedup _)
    rw [find_skills, if_neg hz]
    refine ⟨hsorted.filter _, hnodup.filter _, ?_⟩
    intro sk
    rw [List.mem_filter]
    constructor
    · rintro ⟨hm, hb⟩
      exact ⟨hz, hm, hb⟩
    · rintro ⟨_, hm, hb⟩
      exact ⟨hm, hb⟩

/-- Witness for C5 (amended): `"go"` is found in `"I use go daily"` via the
membership characterization. -/
theorem C5_amended_witness :
    "go".toList ∈ find_skills "I use go daily".toList [] :=
  ((C5_amended.1 "I use go daily".toList []).2.2 "go".toList).mpr
    ⟨by decide, by decide, by decide⟩

/-!
## Classification and routing: C2, C1
-/

/-- **C2.**  Classification scores each marker list by counting the phrases
present as substrings of the lowercased cleaned text (each at most once,
which is what `markerScore` computes) and decides: both scores zero gives
Unknown, a tie goes to Resume, otherwise the higher score wins; in
particular scores of exactly one each classify as Resume. -/
theorem C2_classification (t : List Char) :
    (markerScore resume_markers t = 0 → markerScore job_markers t = 0 →
      detect_file_type t = DocType.unknown) ∧
    (markerScore resume_markers t = markerScore job_markers t →
      markerScore resume_markers t ≠ 0 →
      detect_file_type t = DocType.resume) ∧
    (markerScore job_markers t < markerScore resume_markers t →
      detect_file_type t = DocType.resume) ∧
    (markerScore resume_markers t < markerScore job_markers t →
      detect_file_type t = DocType.job) ∧
    (markerScore resume_markers t = 1 → markerScore job_markers t = 1 →
      detect_file_type t = DocType.resume) := by
  refine ⟨?_, ?_, ?_, ?_, ?_⟩
  · intro h1 h2
    rw [detect_file_type, if_pos ⟨h1, h2⟩]
  · intro he hne
    rw [detect_file_type, if_neg (fun hz => hne hz.1), if_pos (le_of_eq he.symm)]
  · intro hlt
    rw [detect_file_type, if_neg (fun hz => by rw [hz.1] at hlt; exact Nat.not_lt_zero _ hlt),
      if_pos (Nat.le_of_lt hlt)]
  · intro hlt
    rw [detect_file_type, if_neg (fun hz => by rw [hz.2] at hlt; exact Nat.not_lt_zero _ hlt),
      if_neg (Nat.not_le_of_lt hlt)]
  · intro h1 h2
    rw [detect_file_type, if_neg (fun hz => by rw [h1] at hz; cases hz.1),
      if_pos (by rw [h1, h2])]

/-- Witness for C2: `"cv job title"` contains exactly one resume marker and
one job marker and classifies as resume. -/
theorem C2_classification_witness :
    detect_file_type "cv job title".toList = DocType.resume :=
  (C2_classification "cv job title".toList).2.2.2.2 (by decide) (by decide)

/-- **C1.**  `parse` returns the classifier's type, dispatches the `data`
field to exactly the standalone extractor of that type, produces
`{data: {}, normalized: {raw_text: cleaned text}}` for unknown documents,
and on empty input returns the unknown record with empty raw text. -/
theorem C1_route_projection (nlp : Option NerModel) (raw : List Char) :
    (parse nlp raw).dtype = detect_file_type raw ∧
    (detect_file_type raw = DocType.resume →
      (parse nlp raw).data = ParseData.resumeD (extract_resume_data nlp raw)) ∧
    (detect_file_type raw = DocType.job →
      (parse nlp raw).data = ParseData.jobD (extract_job_data raw)) ∧
    (detect_file_type raw = DocType.unknown →
      (parse nlp raw).data = ParseData.emptyD ∧
        (parse nlp raw).normalized = NormView.unknownN (clean_text raw)) ∧
    parse nlp [] = ⟨DocType.unknown, ParseData.emptyD, NormView.unknownN []⟩ := by
  have hlast : parse nlp [] = ⟨DocType.unknown, ParseData.emptyD, NormView.unknownN []⟩ := by
    have hd : detect_file_type [] = DocType.unknown := by decide
    unfold parse
    rw [hd]
    rfl
  refine ⟨?_, ?_, ?_, ?_, hlast⟩ <;>
    cases h : detect_file_type raw <;> simp [parse, h]

/-- Witness for C1: a document classified as resume has `data` equal to the
standalone resume extractor's output. -/
theorem C1_route_witness :
    (parse none "skills".toList).data
      = ParseData.resumeD (extract_resume_data none "skills".toList) :=
  (C1_route_projection none "skills".toList).2.1 (by decide)

/-!
## Job extraction on the spec's end-to-end example: C6
-/

set_option maxRecDepth 20000 in
/-- **C6 (code evaluation).**  On the spec's end-to-end job example the
extractor does not produce `title == "Backend Engineer"` etc.: because
`clean_text` collapsed the newlines, the greedy `(.+)` captures run to the
end of the document and `EDUCATION_RE`'s alternative `BA` matches inside
the word `Backend`, giving `education_required = "Ba"`. -/
theorem C6_job_extraction_on_spec_example :
    (extract_job_data "Job Title: Backend Engineer\nCompany: Acme\nRequirements\n3+ years of experience\nBachelor's degree".toList).title
      = some "Backend Engineer Company: Acme Requirements 3+ years of experience Bachelor's degree".toList ∧
    (extract_job_data "Job Title: Backend Engineer\nCompany: Acme\nRequirements\n3+ years of experience\nBachelor's degree".toList).company
      = some "Acme Requirements 3+ years of experience Bachelor's degree".toList ∧
    (extract_job_data "Job Title: Backend Engineer\nCompany: Acme\nRequirements\n3+ years of experience\nBachelor's degree".toList).experience_required
      = some "3+ years of experience Bachelor's degree".toList ∧
    (extract_job_data "Job Title: Backend Engineer\nCompany: Acme\nRequirements\n3+ years of experience\nBachelor's degree".toList).education_required
      = some "Ba".toList := by
  refine ⟨by decide, by decide, by decide, by decide⟩

/-!
## Responsibility bullets: C7
-/

/-- **C7 (code evaluation).**  On a section whose last two lines look like
bullets (they start with `-`), `_extract_bullets` does not prefer them: it
strips the bullet markers before testing for them, finds no bullet-like
line, and returns all (stripped) lines. -/
theorem C7_bullets_on_bulleted_section :
    ("- Do X".toList.head? = some '-') ∧
    extract_bullets "Intro\n- Do X\n- Do Y".toList
      = ["Intro".toList, "Do X".toList, "Do Y".toList] := by
  exact ⟨rfl, by decide⟩

/-!
## Totality and output schema: C9
-/

/-- **C9.**  The extractors and the router are total functions of the text
(file reading abstracted, the named-entity capability optional): every
documented key is always present in the returned dict, absent singular
fields are `None` (`Option.none`) and absent list fields are empty lists;
in particular empty input yields the all-default records rather than an
error. -/
theorem C9_total_schema (nlp : Option NerModel) (raw : List Char) :
    (resumeToDict (extract_resume_data nlp raw)).map Prod.fst
      = ["name", "email", "phone", "education", "experience", "skills",
         "projects", "certifications", "linkedin", "github", "raw_text"] ∧
    (jobToDict (extract_job_data raw)).map Prod.fst
      = ["title", "company", "skills_required", "experience_required",
         "education_required", "responsibilities", "location", "raw_text"] ∧
    (parseToDict (parse nlp raw)).map Prod.fst
      = ["type", "data", "normalized"] ∧
    extract_resume_data nlp []
      = ⟨none, none, none, [], [], [], [], [], none, none, []⟩ ∧
    extract_job_data [] = ⟨none, none, [], none, none, [], none, []⟩ := by
  refine ⟨rfl, rfl, rfl, ?_, by decide⟩
  rfl

/-!
## The skill scanner as a declarative occurrence predicate (toward C10)
-/

theorem head?_append_left {l m : List Char} (h : l ≠ []) :
    (l ++ m).head? = l.head? := by
  cases l with
  | nil => exact absurd rfl h
  | cons c rest => rfl

theorem getLast?_cons_ne {x : Char} {l : List Char} (h : l ≠ []) :
    (x :: l).getLast? = l.getLast? := by
  show ([x] ++ l).getLast? = l.getLast?
  exact List.getLast?_append_of_ne_nil [x] h

theorem matchCore_iff : ∀ (s l : List Char),
    matchCore s l = true ↔ ∃ b, l = s ++ b ∧ laOkL b := by
  intro s
  induction s with
  | nil =>
    intro l
    cases l with
    | nil =>
      constructor
      · intro _
        exact ⟨[], rfl, fun c hc => nomatch hc⟩
      · intro _; rfl
    | cons c l' =>
      show (!skillAfterClass c) = true ↔ _
      constructor
      · intro h
        refine ⟨c :: l', rfl, ?_⟩
        intro d hd
        cases hd
        exact Bool.not_eq_true' .. ▸ h
      · rintro ⟨b, hb, hla⟩
        cases hb
        have := hla c rfl
        rw [Bool.not_eq_true', this]
  | cons c s' ih =>
    intro l
    cases l with
    | nil =>
      constructor
      · intro h; cases h
      · rintro ⟨b, hb, _⟩
        cases hb
    | cons d l' =>
      show (c == d && matchCore s' l') = true ↔ _
      rw [Bool.and_eq_true, beq_iff_eq, ih l']
      constructor
      · rintro ⟨he, b, hb, hla⟩
        exact ⟨b, by rw [he, hb]; rfl, hla⟩
      · rintro ⟨b, hb, hla⟩
        injection hb with h1 h2
        exact ⟨h1.symm, b, h2, hla⟩

/-- The one-character left context corresponding to the scanner's `prev`
argument. -/
def ctxOf : Option Char → List Char
  | none => []
  | some c => [c]

theorem lbOkL_ctx_shift (prev : Option Char) (c : Char) (a : List Char) :
    lbOkL (ctxOf prev ++ c :: a) ↔ lbOkL (c :: a) := by
  constructor <;> intro h d hd
  · apply h d
    rw [List.getLast?_append_of_ne_nil (ctxOf prev) (List.cons_ne_nil c a)]
    exact hd
  · apply h d
    rw [List.getLast?_append_of_ne_nil (ctxOf prev) (List.cons_ne_nil c a)] at hd
    exact hd

theorem skillScan_iff : ∀ (l : List Char) (prev : Option Char) (s : List Char),
    skillScan s prev l = true ↔
      ∃ a b, l = a ++ s ++ b ∧ lbOkL (ctxOf prev ++ a) ∧ laOkL b := by
  intro l
  induction l with
  | nil =>
    intro prev s
    show ((match prev with
      | none => true | some c => !skillBeforeClass c) && matchCore s []) = true ↔ _
    rw [Bool.and_eq_true, matchCore_iff]
    constructor
    · rintro ⟨hp, b, hb, hla⟩
      have hs : s = [] := by
        cases s with
        | nil => rfl
        | cons x s₂ => cases hb
      subst hs
      refine ⟨[], [], rfl, ?_, fun c hc => nomatch hc⟩
      intro c hc
      rw [List.append_nil] at hc
      cases prev with
      | none => cases hc
      | some d =>
        cases hc
        exact Bool.not_eq_true' .. ▸ hp
    · rintro ⟨a, b, heq, hlb, hla⟩
      have ha : a = [] := by
        cases a with
        | nil => rfl
        | cons x a₂ => cases heq
      subst ha
      rw [List.nil_append] at heq
      have hs : s = [] := by
        cases s with
        | nil => rfl
        | cons x s₂ => cases heq
      subst hs
      refine ⟨?_, [], rfl, fun c hc => nomatch hc⟩
      cases prev with
      | none => rfl
      | some d =>
        rw [List.append_nil] at hlb
        have := hlb d rfl
        rw [Bool.not_eq_true', this]
  | cons c rest ih =>
    intro prev s
    show (((match prev with
        | none => true | some c' => !skillBeforeClass c')
          && matchCore s (c :: rest))
        || skillScan s (some c) rest) = true ↔ _
    rw [Bool.or_eq_true, Bool.and_eq_true, matchCore_iff, ih (some c) s]
    constructor
    · rintro (⟨hp, b, hb, hla⟩ | ⟨a, b, heq, hlb, hla⟩)
      · refine ⟨[], b, by rw [List.nil_append]; exact hb, ?_, hla⟩
        intro d hd
        rw [List.append_nil] at hd
        cases prev with
        | none => cases hd
        | some e =>
          cases hd
          exact Bool.not_eq_true' .. ▸ hp
      · refine ⟨c :: a, b, by rw [heq]; rfl, ?_, hla⟩
        exact (lbOkL_ctx_shift prev c a).mpr hlb
    · rintro ⟨a, b, heq, hlb, hla⟩
      cases a with
      | nil =>
        left
        rw [List.nil_append] at heq
        refine ⟨?_, b, heq, hla⟩
        cases prev with
        | none => rfl
        | some e =>
          rw [List.append_nil] at hlb
          have := hlb e rfl
          rw [Bool.not_eq_true', this]
      | cons x a₂ =>
        right
        injection heq with h1 h2
        subst h1
        exact ⟨a₂, b, h2, (lbOkL_ctx_shift prev c a₂).mp hlb, hla⟩

theorem hasBoundedMatch_iff (s l : List Char) :
    hasBoundedMatch s l = true ↔ bOcc s l := by
  rw [hasBoundedMatch, skillScan_iff l none s]
  constructor
  · rintro ⟨a, b, heq, hlb, hla⟩
    exact ⟨a, b, heq, by rw [ctxOf, List.nil_append] at hlb; exact hlb, hla⟩
  · rintro ⟨a, b, heq, hlb, hla⟩
    exact ⟨a, b, heq, by rw [ctxOf, List.nil_append]; exact hlb, hla⟩

/-!
## Occurrence algebra at junction characters (toward C10)
-/

theorem bOcc_pad {s : List Char} (hne : s ≠ []) (hsp : ' ' ∉ s)
    (u : List Char) : bOcc s (' ' :: (u ++ [' '])) ↔ bOcc s u := by
  constructor
  · rintro ⟨a, b, heq, hlb, hla⟩
    cases a with
    | nil =>
      rw [List.nil_append] at heq
      cases s with
      | nil => exact absurd rfl hne
      | cons x s₂ =>
        rw [List.cons_append] at heq
        injection heq with h1 _
        subst h1
        exact absurd (List.mem_cons_self _ s₂) hsp
    | cons y a₂ =>
      rw [List.cons_append, List.cons_append] at heq
      injection heq with h1 h2
      subst h1
      have hbne : b ≠ [] := by
        intro hb
        subst hb
        rw [List.append_nil] at h2
        have hlast : s.getLast? = some ' ' := by
          rw [← List.getLast?_append_of_ne_nil a₂ hne, ← h2,
            List.getLast?_append_of_ne_nil u (by simp)]
          rfl
        exact absurd (List.mem_of_mem_getLast? hlast) hsp
      rcases List.eq_nil_or_concat b with hb | ⟨B, x, hb⟩
      · exact absurd hb hbne
      rw [List.concat_eq_append] at hb
      subst hb
      have hx : x = ' ' := by
        have hlast : (B ++ [x]).getLast? = some ' ' := by
          rw [← List.getLast?_append_of_ne_nil (a₂ ++ s) (by simp), ← h2,
            List.getLast?_append_of_ne_nil u (by simp)]
          rfl
        rw [List.getLast?_append_of_ne_nil B (by simp),
          List.getLast?_singleton] at hlast
        injection hlast
      subst hx
      have h2' : u ++ [' '] = (a₂ ++ s ++ B) ++ [' '] := by
        rw [h2, List.append_assoc (a₂ ++ s) B [' ']]
      have hu : u = a₂ ++ s ++ B := List.append_cancel_right h2'
      refine ⟨a₂, B, hu, ?_, ?_⟩
      · intro d hd
        apply hlb d
        have ha₂ : a₂ ≠ [] := by
          intro he
          rw [he] at hd
          cases hd
        rw [getLast?_cons_ne ha₂]
        exact hd
      · intro d hd
        apply hla d
        have hB : B ≠ [] := by
          intro he
          rw [he] at hd
          cases hd
        rw [head?_append_left hB]
        exact hd
  · rintro ⟨a, b, heq, hlb, hla⟩
    refine ⟨' ' :: a, b ++ [' '], ?_, ?_, ?_⟩
    · rw [heq]
      simp [List.cons_append, List.append_assoc]
    · intro d hd
      cases ha : a with
      | nil =>
        subst ha
        rw [List.getLast?_singleton] at hd
        injection hd with hd'
        subst hd'
        rfl
      | cons y a₂ =>
        subst ha
        rw [getLast?_cons_ne (List.cons_ne_nil y a₂)] at hd
        exact hlb d hd
    · intro d hd
      cases hb : b with
      | nil =>
        subst hb
        rw [List.nil_append, List.head?_cons] at hd
        injection hd with hd'
        subst hd'
        rfl
      | cons y b₂ =>
        subst hb
        rw [head?_append_left (List.cons_ne_nil y b₂)] at hd
        exact hla d hd

theorem bOcc_cons_nl {s : List Char} (hne : s ≠ []) (hnl : '\n' ∉ s)
    (u : List Char) : bOcc s ('\n' :: u) ↔ bOcc s u := by
  constructor
  · rintro ⟨a, b, heq, hlb, hla⟩
    cases a with
    | nil =>
      rw [List.nil_append] at heq
      cases s with
      | nil => exact absurd rfl hne
      | cons x s₂ =>
        rw [List.cons_append] at heq
        injection heq with h1 _
        subst h1
        exact absurd (List.mem_cons_self _ s₂) hnl
    | cons y a₂ =>
      rw [List.cons_append, List.cons_append] at heq
      injection heq with h1 h2
      refine ⟨a₂, b, by rw [h2, List.append_assoc], ?_, hla⟩
      intro d hd
      apply hlb d
      have ha₂ : a₂ ≠ [] := by
        intro he
        rw [he] at hd
        cases hd
      rw [getLast?_cons_ne ha₂]
      exact hd
  · rintro ⟨a, b, heq, hlb, hla⟩
    refine ⟨'\n' :: a, b, ?_, ?_, hla⟩
    · rw [heq]
      simp [List.cons_append, List.append_assoc]
    · intro d hd
      cases ha : a with
      | nil =>
        subst ha
        rw [List.getLast?_singleton] at hd
        injection hd with hd'
        subst hd'
        rfl
      | cons y a₂ =>
        subst ha
        rw [getLast?_cons_ne (List.cons_ne_nil y a₂)] at hd
        exact hlb d hd

theorem bOcc_sep_split {s : List Char} (hne : s ≠ []) (hnl : '\n' ∉ s)
    (u v : List Char) : bOcc s (u ++ '\n' :: v) ↔ bOcc s u ∨ bOcc s v := by
  constructor
  · rintro ⟨a, b, heq, hlb, hla⟩
    rw [List.append_assoc] at heq
    rcases List.append_eq_append_iff.mp heq with ⟨m, hm1, hm2⟩ | ⟨m, hm1, hm2⟩
    · -- a = u ++ m and '\n' :: v = m ++ (s ++ b)
      cases m with
      | nil =>
        rw [List.nil_append] at hm2
        cases s with
        | nil => exact absurd rfl hne
        | cons x s₂ =>
          rw [List.cons_append] at hm2
          injection hm2 with h1 _
          subst h1
          exact absurd (List.mem_cons_self _ s₂) hnl
      | cons y m₂ =>
        rw [List.cons_append] at hm2
        injection hm2 with h1 h2
        subst h1
        right
        refine ⟨m₂, b, by rw [h2, List.append_assoc], ?_, hla⟩
        intro d hd
        apply hlb d
        have hm₂ : m₂ ≠ [] := by
          intro he
          rw [he] at hd
          cases hd
        rw [hm1, List.getLast?_append_of_ne_nil u (List.cons_ne_nil _ m₂),
          getLast?_cons_ne hm₂]
        exact hd
    · -- u = a ++ m and s ++ b = m ++ ('\n' :: v)
      rcases List.append_eq_append_iff.mp hm2 with ⟨m₂, hn1, hn2⟩ | ⟨m₂, hn1, hn2⟩
      · -- m = s ++ m₂ and b = m₂ ++ ('\n' :: v)
        left
        refine ⟨a, m₂, by rw [hm1, hn1, List.append_assoc], hlb, ?_⟩
        intro d hd
        apply hla d
        have hm₂ : m₂ ≠ [] := by
          intro he
          rw [he] at hd
          cases hd
        rw [hn2, head?_append_left hm₂]
        exact hd
      · -- s = m ++ m₂ and '\n' :: v = m₂ ++ b
        cases m₂ with
        | nil =>
          rw [List.append_nil] at hn1
          left
          refine ⟨a, [], ?_, hlb, ?_⟩
          · rw [List.append_nil, hm1, hn1]
          · intro d hd
            cases hd
        | cons z m₃ =>
          rw [List.cons_append] at hn2
          injection hn2 with h1 _
          subst h1
          exact absurd (by
            rw [hn1]
            exact List.mem_append.mpr (Or.inr (List.mem_cons_self _ m₃))) hnl
  · rintro (⟨a, b, heq, hlb, hla⟩ | ⟨a, b, heq, hlb, hla⟩)
    · refine ⟨a, b ++ '\n' :: v, ?_, hlb, ?_⟩
      · rw [heq]
        simp [List.append_assoc]
      · intro d hd
        cases hb : b with
        | nil =>
          subst hb
          rw [List.nil_append, List.head?_cons] at hd
          injection hd with hd'
          subst hd'
          rfl
        | cons y b₂ =>
          subst hb
          rw [head?_append_left (List.cons_ne_nil y b₂)] at hd
          exact hla d hd
    · refine ⟨u ++ '\n' :: a, b, ?_, ?_, hla⟩
      · rw [heq]
        simp [List.cons_append, List.append_assoc]
      · intro d hd
        rw [List.getLast?_append_of_ne_nil u (List.cons_ne_nil '\n' a)] at hd
        cases ha : a with
        | nil =>
          subst ha
          rw [List.getLast?_singleton] at hd
          injection hd with hd'
          subst hd'
          rfl
        | cons y a₂ =>
          subst ha
          rw [getLast?_cons_ne (List.cons_ne_nil y a₂)] at hd
          exact hlb d hd

theorem bool_eq_of_iff {a b : Bool} (h : a = true ↔ b = true) : a = b := by
  cases a <;> cases b <;> simp_all

theorem skillDict_facts : ∀ sk ∈ sortedDict [], sk ≠ [] ∧ ' ' ∉ sk ∧ '\n' ∉ sk := by
  decide

theorem lowerL_nl_cons (t : List Char) : lowerL ('\n' :: t) = '\n' :: lowerL t := by
  rw [lowerL, List.map_cons]
  rw [show lowerChar '\n' = '\n' from by decide]
  rfl

theorem lowerL_dup (t : List Char) :
    lowerL (t ++ '\n' :: t) = lowerL t ++ '\n' :: lowerL t := by
  rw [lowerL, List.map_append, List.map_cons]
  rw [show lowerChar '\n' = '\n' from by decide]
  rfl

theorem find_skills_nl_cons (t : List Char) :
    find_skills ('\n' :: t) [] = find_skills t [] := by
  by_cases hz : t = []
  · subst hz
    decide
  · rw [find_skills, find_skills, if_neg (by simp), if_neg hz]
    apply List.filter_congr
    intro sk hsk
    obtain ⟨h1, h2, h3⟩ := skillDict_facts sk hsk
    apply bool_eq_of_iff
    rw [hasBoundedMatch_iff, hasBoundedMatch_iff, lowerL_nl_cons]
    rw [show (' ' :: '\n' :: lowerL t) ++ [' ']
        = ' ' :: (('\n' :: lowerL t) ++ [' ']) from rfl]
    rw [show (' ' :: lowerL t) ++ [' '] = ' ' :: (lowerL t ++ [' ']) from rfl]
    rw [bOcc_pad h1 h2 ('\n' :: lowerL t), bOcc_cons_nl h1 h3 (lowerL t),
      bOcc_pad h1 h2 (lowerL t)]

theorem find_skills_dup (t : List Char) (hz : t ≠ []) :
    find_skills (t ++ '\n' :: t) [] = find_skills t [] := by
  rw [find_skills, find_skills, if_neg (by simp), if_neg hz]
  apply List.filter_congr
  intro sk hsk
  obtain ⟨h1, h2, h3⟩ := skillDict_facts sk hsk
  apply bool_eq_of_iff
  rw [hasBoundedMatch_iff, hasBoundedMatch_iff, lowerL_dup]
  rw [show (' ' :: (lowerL t ++ '\n' :: lowerL t)) ++ [' ']
      = ' ' :: ((lowerL t ++ '\n' :: lowerL t) ++ [' ']) from rfl]
  rw [show (' ' :: lowerL t) ++ [' '] = ' ' :: (lowerL t ++ [' ']) from rfl]
  rw [bOcc_pad h1 h2 (lowerL t ++ '\n' :: lowerL t)]
  rw [show (lowerL t ++ '\n' :: lowerL t) = lowerL t ++ ('\n' :: lowerL t) from rfl]
  rw [bOcc_sep_split h1 h3 (lowerL t) (lowerL t), bOcc_pad h1 h2 (lowerL t)]
  exact or_self_iff

/-- **C10.**  `skills_required` equals `find_skills` on the cleaned whole
text alone: the requirements text prepended before the skill search (always
produced by the keyword-line fallback, since headers never survive
cleaning) is either empty or the whole document, and the `"\n"` separator
and the duplication never add or remove a dictionary match. -/
theorem C10_job_skills_whole_text (raw : List Char) :
    (extract_job_data raw).skills_required = find_skills (clean_text raw) [] := by
  have hfs : find_section (clean_text raw) ["requirements"] = [] := by
    rw [find_section, split_sections_clean_eq raw]
    rfl
  have hone : splitNl (clean_text raw) = [clean_text raw] :=
    splitNl_of_no_nl clean_text_no_nl
  simp only [extract_job_data, hfs, if_pos rfl, keywordLines, hone]
  rw [List.filter_cons, List.filter_nil]
  by_cases hkw : ((["requirements".toList, "must have".toList,
      "qualifications".toList]).any
        (fun k => containsSub k (lowerL (clean_text raw)))) = true
  · rw [if_pos hkw]
    rw [show joinNl [clean_text raw] = clean_text raw from rfl, if_pos trivial]
    have hz : clean_text raw ≠ [] := by
      intro he
      rw [he] at hkw
      exact absurd hkw (by decide)
    exact find_skills_dup (clean_text raw) hz
  · rw [if_neg hkw]
    rw [show joinNl ([] : List (List Char)) = [] from rfl, if_pos trivial,
      List.nil_append]
    exact find_skills_nl_cons (clean_text raw)

end HireLoop
